import Mathlib

/-!
Verification of the task-dispatch / code-block-extraction / command-gate
subsystem of `GenerativeAIApp.py`, shallowly embedded over `List Char`.

Conventions of the embedding:
* Python strings are `String` / `List Char`; `len` is `List.length`.
* Python's `str.strip()` is `pstrip` (ASCII whitespace model); `str.lower()`
  is `lowerS` (ASCII case folding, as for the ASCII inputs the claims use).
* `p in s` (substring test) is `containsSub p s`.
* The regex word-character class `\w` is modelled as `[A-Za-z0-9_]`.
* Provider calls (`generate_content`) are oracles passed in as parameters:
  `Except String String`, where `.error e` models a raised exception with
  message `e`.
* Qt signal emissions are recorded as lists of events in result structures.
-/

/-- ASCII lower-casing, modelling Python's `str.lower`/`re.IGNORECASE`
on the ASCII inputs considered here. -/
def lowerChar (c : Char) : Char :=
  if 'A' ≤ c ∧ c ≤ 'Z' then Char.ofNat (c.toNat + 32) else c

/-- ASCII upper-casing, modelling Python's `str.upper` on ASCII inputs. -/
def upperChar (c : Char) : Char :=
  if 'a' ≤ c ∧ c ≤ 'z' then Char.ofNat (c.toNat - 32) else c

def lowerS (l : List Char) : List Char := l.map lowerChar

def upperS (l : List Char) : List Char := l.map upperChar

/-- ASCII whitespace, modelling Python's `str.strip` / regex `\s` character
class on ASCII text. -/
def isWS (c : Char) : Bool :=
  c = ' ' ∨ c = '\t' ∨ c = '\n' ∨ c = '\r' ∨ c = '\x0b' ∨ c = '\x0c'

/-- Python `str.strip()`: drop leading and trailing whitespace. -/
def pstrip (l : List Char) : List Char :=
  ((l.dropWhile isWS).reverse.dropWhile isWS).reverse

/-- `startsWith pat l` : does `l` start with `pat`?  (Boolean prefix test.) -/
def startsWith : List Char → List Char → Bool
  | [], _ => true
  | _ :: _, [] => false
  | a :: as, b :: bs => a == b && startsWith as bs

/-- Python's substring test `pat in l`. -/
def containsSub (pat : List Char) : List Char → Bool
  | [] => pat.isEmpty
  | c :: rest => startsWith pat (c :: rest) || containsSub pat rest

/-- Number of positions of `l` at which `pat` occurs as a substring. -/
def occCount (pat : List Char) : List Char → Nat
  | [] => 0
  | c :: rest => (if pat <+: c :: rest then 1 else 0) + occCount pat rest

theorem startsWith_iff (pat l : List Char) : startsWith pat l = true ↔ pat <+: l := by
  induction pat generalizing l with
  | nil => simp [startsWith]
  | cons a as ih =>
    cases l with
    | nil => simp [startsWith]
    | cons b bs =>
      simp only [startsWith, Bool.and_eq_true, beq_iff_eq, ih, List.cons_prefix_cons]

theorem infix_cons_iff' {l : List Char} {c : Char} {rest : List Char} :
    l <:+: c :: rest ↔ l <+: c :: rest ∨ l <:+: rest := by
  constructor
  · rintro ⟨s, t, h⟩
    cases s with
    | nil => exact Or.inl ⟨t, by simpa using h⟩
    | cons a s' =>
      right
      rcases h with h
      have : a :: (s' ++ l ++ t) = c :: rest := by simpa using h
      have h2 : s' ++ l ++ t = rest := by
        injection this with _ h2
      exact ⟨s', t, h2⟩
  · rintro (⟨t, h⟩ | ⟨s, t, h⟩)
    · exact ⟨[], t, by simpa using h⟩
    · exact ⟨c :: s, t, by simp [← h]⟩

theorem containsSub_iff (pat l : List Char) : containsSub pat l = true ↔ pat <:+: l := by
  induction l with
  | nil => simp [containsSub, List.isEmpty_iff]
  | cons c rest ih =>
    simp [containsSub, startsWith_iff, ih, infix_cons_iff']

theorem occCount_zero_iff (pat : List Char) (hp : pat ≠ []) (l : List Char) :
    occCount pat l = 0 ↔ containsSub pat l = false := by
  induction l with
  | nil => simp [occCount, containsSub, List.isEmpty_iff, hp]
  | cons c rest ih =>
    rw [occCount, containsSub]
    by_cases hpre : pat <+: c :: rest
    · have hs : startsWith pat (c :: rest) = true := (startsWith_iff _ _).mpr hpre
      simp [hpre, hs]
    · have hs : startsWith pat (c :: rest) = false := by
        rw [← Bool.not_eq_true]
        simp only [startsWith_iff]
        exact hpre
      simp [hpre, hs, ih]

theorem containsSub_of_pos {pat l : List Char} (h : 0 < occCount pat l) (hp : pat ≠ []) :
    containsSub pat l = true := by
  by_contra hc
  have := (occCount_zero_iff pat hp l).mpr (by simpa using hc)
  omega

theorem prefix_append_split {pat a b : List Char} (h : pat <+: a ++ b) :
    pat <+: a ∨ (a <+: pat ∧ pat.drop a.length <+: b) := by
  rcases h with ⟨t, ht⟩
  rcases List.append_eq_append_iff.mp ht with ⟨a', ha, _⟩ | ⟨c', hc, hd⟩
  · exact Or.inl ⟨a', ha.symm⟩
  · refine Or.inr ⟨⟨c', hc.symm⟩, ?_⟩
    refine ⟨t, ?_⟩
    rw [hc]
    rw [List.drop_left]
    exact hd.symm

theorem occCount_append {pat : List Char} : ∀ {a b : List Char},
    (∀ k, 0 < k → k < pat.length → ¬ (pat.take k <:+ a ∧ pat.drop k <+: b)) →
    occCount pat (a ++ b) = occCount pat a + occCount pat b := by
  intro a
  induction a with
  | nil => intro b _; simp [occCount]
  | cons c a' ih =>
    intro b h
    have h' : ∀ k, 0 < k → k < pat.length → ¬ (pat.take k <:+ a' ∧ pat.drop k <+: b) := by
      intro k hk1 hk2 ⟨hs, hpb⟩
      exact h k hk1 hk2 ⟨hs.trans (List.suffix_cons c a'), hpb⟩
    have key : (pat <+: c :: (a' ++ b)) ↔ (pat <+: c :: a') := by
      constructor
      · intro hp
        have hp2 : pat <+: (c :: a') ++ b := by simpa using hp
        rcases prefix_append_split hp2 with h1 | ⟨h2, h3⟩
        · exact h1
        · by_cases hlen : pat.length ≤ (c :: a').length
          · have : c :: a' = pat := List.IsPrefix.eq_of_length h2
              (le_antisymm (List.IsPrefix.length_le h2) hlen)
            rw [← this]
          · push_neg at hlen
            exfalso
            refine h (c :: a').length (by simp) hlen ⟨?_, h3⟩
            have : pat.take (c :: a').length = c :: a' := by
              have := List.prefix_iff_eq_take.mp h2
              exact this.symm
            rw [this]
      · intro hp
        have : pat <+: (c :: a') ++ b := hp.trans (List.prefix_append _ _)
        simpa using this
    show (if pat <+: c :: (a' ++ b) then 1 else 0) + occCount pat (a' ++ b)
        = ((if pat <+: c :: a' then 1 else 0) + occCount pat a') + occCount pat b
    rw [ih h']
    by_cases hp : pat <+: c :: a'
    · rw [if_pos (key.mpr hp), if_pos hp]
      omega
    · rw [if_neg (fun hx => hp (key.mp hx)), if_neg hp]
      omega

theorem not_prefix_of_head_ne {p : List Char} {c : Char} {l : List Char}
    (hp : p ≠ []) (h : p.head? ≠ some c) : ¬ p <+: c :: l := by
  intro hpre
  cases p with
  | nil => exact hp rfl
  | cons a as =>
    rcases List.cons_prefix_cons.mp hpre with ⟨h1, _⟩
    exact h (by simp [h1])

theorem not_suffix_of_getLast_ne {p : List Char} {l : List Char}
    (hp : p ≠ []) (h : p.getLast? ≠ l.getLast?) : ¬ p <:+ l := by
  intro hsuf
  rcases hsuf with ⟨t, ht⟩
  apply h
  obtain ⟨x, hx⟩ : ∃ x, p.getLast? = some x := by
    cases hq : p.getLast? with
    | none => exact absurd (List.getLast?_eq_none_iff.mp hq) hp
    | some x => exact ⟨x, rfl⟩
  rw [← ht, List.getLast?_append, hx]
  simp

theorem occCount_append_left {pat a b : List Char}
    (h : ∀ k, 0 < k → k < pat.length → ¬ pat.take k <:+ a) :
    occCount pat (a ++ b) = occCount pat a + occCount pat b :=
  occCount_append (fun k hk1 hk2 ⟨hs, _⟩ => h k hk1 hk2 hs)

theorem occCount_append_right {pat a b : List Char}
    (h : ∀ k, 0 < k → k < pat.length → ¬ pat.drop k <+: b) :
    occCount pat (a ++ b) = occCount pat a + occCount pat b :=
  occCount_append (fun k hk1 hk2 ⟨_, hpb⟩ => h k hk1 hk2 hpb)

/-! ## CommandGate / SafeExecutor (`execute_safe_command`, source lines 488-497) -/

/-- The denylist of `execute_safe_command` (source line 489). -/
def blocked_patterns : List String := ["rm ", "del ", "format ", "chmod", "sudo"]

/-- The gate condition (source line 490): `any(p in command for p in patterns)`. -/
def blockedB (command : String) : Bool :=
  blocked_patterns.any (fun p => containsSub p.toList command.toList)

/-- Observable executor state: the output queue and the commands spawned as
child processes. -/
structure ExecSt where
  queue : List String
  spawned : List String
deriving DecidableEq

/-- `execute_safe_command` (source lines 488-497): validate against the
denylist; on rejection raise `SecurityError` (second component `some msg`)
with no side effect; on acceptance push `$ command` and the process output
lines (`procOut command`, the merged stdout/stderr of the spawned process)
onto the queue. -/
def execute_safe_command (procOut : String → List String) (command : String)
    (st : ExecSt) : ExecSt × Option String :=
  if blockedB command then (st, some "Blocked potentially dangerous command")
  else ({ queue := st.queue ++ ("$ " ++ command) :: procOut command,
          spawned := st.spawned ++ [command] }, none)

/-! ## Input validation (`validate_input`, source lines 471-479) -/

/-- Error taxonomy of `validate_input`: `valueShort`/`valueLong` model the two
`ValueError`s, `securityKeywords` models the `SecurityError`. -/
inductive VError where
  | valueShort
  | valueLong
  | securityKeywords
deriving DecidableEq

/-- Word character of the regex class `\w`, modelled as `[A-Za-z0-9_]`. -/
def isWordChar (c : Char) : Bool :=
  c.isAlphanum || c = '_'

/-- Case-insensitive strip of `w` from the head of a list; `some rest` is the
remainder after the match. -/
def dropCI : List Char → List Char → Option (List Char)
  | [], l => some l
  | _ :: _, [] => none
  | a :: as, b :: bs => if lowerChar b = lowerChar a then dropCI as bs else none

/-- Whole-word match of `w` at the head position: a case-insensitive match of
`w` followed by end-of-text or a non-word character (the trailing `\b`). -/
def wordAt (w : List Char) (l : List Char) : Bool :=
  match dropCI w l with
  | some [] => true
  | some (c :: _) => !isWordChar c
  | none => false

/-- Scan for a whole-word occurrence; `prev` is the character before the
current position (`none` at the start), giving the leading `\b`. -/
def hasWholeWordAux (w : List Char) : Option Char → List Char → Bool
  | _, [] => false
  | prev, c :: rest =>
    ((match prev with | none => true | some p => !isWordChar p) && wordAt w (c :: rest))
      || hasWholeWordAux w (some c) rest

/-- `re.search(r'\b w \b', text, re.I)` viewed as a Boolean, for a word `w`
made of word characters. -/
def hasWholeWord (w : List Char) (l : List Char) : Bool :=
  hasWholeWordAux w none l

/-- The sensitive-keyword search of source line 477:
`re.search(r'\b(password|secret|key)\b', text, re.I)`. -/
def hasSensitive (l : List Char) : Bool :=
  hasWholeWord "password".toList l || hasWholeWord "secret".toList l
    || hasWholeWord "key".toList l

/-- `validate_input` (source lines 471-479): strip, then length checks, then
the sensitive-keyword check. -/
def validate_input (text : String) : Except VError Unit :=
  let t := pstrip text.toList
  if t.length < 10 then .error .valueShort
  else if 5000 < t.length then .error .valueLong
  else if hasSensitive t then .error .securityKeywords
  else .ok ()

/-- C1: `execute_safe_command` raises `SecurityError` if and only if the
command contains one of `"rm "`, `"del "`, `"format "`, `"chmod"`, `"sudo"`
as a case-sensitive substring; on rejection the state is unchanged (nothing
is pushed onto the output queue, no process is spawned); `"sudo rm -rf /"`
is rejected and `"echo hello"` is accepted. -/
theorem C1_command_gate (procOut : String → List String) (command : String) (st : ExecSt) :
    ((execute_safe_command procOut command st).2.isSome
        ↔ ∃ p ∈ blocked_patterns, p.toList <:+: command.toList)
    ∧ ((execute_safe_command procOut command st).2.isSome →
        execute_safe_command procOut command st
          = (st, some "Blocked potentially dangerous command"))
    ∧ (execute_safe_command procOut "sudo rm -rf /" st).2
        = some "Blocked potentially dangerous command"
    ∧ (execute_safe_command procOut "echo hello" st).2 = none := by
  have hiff : blockedB command = true ↔ ∃ p ∈ blocked_patterns, p.toList <:+: command.toList := by
    rw [blockedB, List.any_eq_true]
    constructor
    · rintro ⟨p, hp, hc⟩
      exact ⟨p, hp, (containsSub_iff _ _).mp hc⟩
    · rintro ⟨p, hp, hc⟩
      exact ⟨p, hp, (containsSub_iff _ _).mpr hc⟩
  refine ⟨?_, ?_, ?_, ?_⟩
  · rw [← hiff]
    by_cases hb : blockedB command = true
    · simp [execute_safe_command, hb]
    · have hb' : blockedB command = false := by simpa using hb
      simp [execute_safe_command, hb']
  · intro h
    by_cases hb : blockedB command = true
    · simp [execute_safe_command, hb]
    · have hb' : blockedB command = false := by simpa using hb
      simp [execute_safe_command, hb'] at h
  · have hb : blockedB "sudo rm -rf /" = true := by decide
    simp [execute_safe_command, hb]
  · have hb : blockedB "echo hello" = false := by decide
    simp [execute_safe_command, hb]

theorem C1_command_gate_witness :
    execute_safe_command (fun _ => []) "sudo rm -rf /" ⟨[], []⟩
      = (⟨[], []⟩, some "Blocked potentially dangerous command") :=
  (C1_command_gate (fun _ => []) "sudo rm -rf /" ⟨[], []⟩).2.1 (by decide)

/-- C2: validation fails for every prompt whose stripped length is below 10 or
above 5000; passes for every in-range prompt without a whole-word sensitive
keyword (`password`/`secret`/`key`, case-insensitive); raises `SecurityError`
for every in-range prompt with such a keyword. -/
theorem C2_validate_input (text : String) :
    (((pstrip text.toList).length < 10 ∨ 5000 < (pstrip text.toList).length) →
        ∃ e, validate_input text = .error e)
    ∧ (10 ≤ (pstrip text.toList).length → (pstrip text.toList).length ≤ 5000 →
        hasSensitive (pstrip text.toList) = false → validate_input text = .ok ())
    ∧ (10 ≤ (pstrip text.toList).length → (pstrip text.toList).length ≤ 5000 →
        hasSensitive (pstrip text.toList) = true →
        validate_input text = .error .securityKeywords) := by
  have hv : validate_input text
      = (if (pstrip text.toList).length < 10 then .error .valueShort
         else if 5000 < (pstrip text.toList).length then .error .valueLong
         else if hasSensitive (pstrip text.toList) then .error .securityKeywords
         else .ok ()) := rfl
  refine ⟨?_, ?_, ?_⟩
  · rintro (h | h)
    · exact ⟨.valueShort, by rw [hv, if_pos h]⟩
    · exact ⟨.valueLong, by rw [hv, if_neg (by omega), if_pos h]⟩
  · intro h1 h2 h3
    rw [hv, if_neg (by omega), if_neg (by omega), if_neg (by rw [h3]; simp)]
  · intro h1 h2 h3
    rw [hv, if_neg (by omega), if_neg (by omega), if_pos h3]

theorem C2_validate_input_witness :
    validate_input "hello there friend" = .ok () :=
  (C2_validate_input "hello there friend").2.1 (by decide) (by decide) (by decide)

/-- C9: the length checks of `validate_input` run before the sensitive-keyword
check: an out-of-range prompt raises the length `ValueError` even when it
contains a sensitive keyword, and `SecurityError` is only possible for
stripped lengths within `[10, 5000]`. -/
theorem C9_check_order (text : String) :
    ((pstrip text.toList).length < 10 → validate_input text = .error .valueShort)
    ∧ (5000 < (pstrip text.toList).length → ¬ (pstrip text.toList).length < 10 →
        validate_input text = .error .valueLong)
    ∧ (validate_input text = .error .securityKeywords →
        10 ≤ (pstrip text.toList).length ∧ (pstrip text.toList).length ≤ 5000) := by
  have hv : validate_input text
      = (if (pstrip text.toList).length < 10 then .error .valueShort
         else if 5000 < (pstrip text.toList).length then .error .valueLong
         else if hasSensitive (pstrip text.toList) then .error .securityKeywords
         else .ok ()) := rfl
  refine ⟨?_, ?_, ?_⟩
  · intro h
    rw [hv, if_pos h]
  · intro h h2
    rw [hv, if_neg h2, if_pos h]
  · intro h
    by_cases h1 : (pstrip text.toList).length < 10
    · rw [hv, if_pos h1] at h
      exact absurd h (by simp)
    · by_cases h2 : 5000 < (pstrip text.toList).length
      · rw [hv, if_neg h1, if_pos h2] at h
        exact absurd h (by simp)
      · omega

theorem C9_check_order_witness :
    validate_input "password" = .error .valueShort :=
  (C9_check_order "password").1 (by decide)

/-! ## Task workers (`generate_content_worker` lines 288-309,
`apply_code_changes_worker` lines 405-417) -/

/-- Events emitted by one run of `generate_content_worker`: the `result`,
`error` and `ui_update` signal payloads, plus the number of calls made to the
primary provider (`available_models["Gemini Pro"].generate_content`). -/
structure GenEvents where
  results : List String
  errors : List String
  uiUpdates : List Bool
  primaryCalls : Nat
deriving DecidableEq

/-- `generate_content_worker` (source lines 288-309).  `primary k` is the
outcome of the `k`-th call to the primary provider for this prompt
(`.error e` models a raised exception).  The non-primary branch sleeps and
synthesizes a simulated result, which cannot raise.  The inner `except`
retries once against `"Gemini Pro"`; the outer `except` emits an error;
the `finally` always emits `ui_update(True)`. -/
def generate_content_worker (selected prompt : String)
    (primary : Nat → Except String String) : GenEvents :=
  if selected = "Gemini Pro" then
    match primary 0 with
    | .ok t => { results := [t], errors := [], uiUpdates := [true], primaryCalls := 1 }
    | .error _ =>
      match primary 1 with
      | .ok t => { results := [t], errors := [], uiUpdates := [true], primaryCalls := 2 }
      | .error e2 =>
        { results := [], errors := ["API Error: " ++ e2], uiUpdates := [true],
          primaryCalls := 2 }
  else
    { results := ["Simulated output from " ++ selected ++ " for prompt: " ++ prompt],
      errors := [], uiUpdates := [true], primaryCalls := 0 }

/-- Events emitted by one run of `apply_code_changes_worker`: `error` and
`code_modification` signal payloads. -/
structure ApplyEvents where
  errors : List String
  codeMods : List String
deriving DecidableEq

/-- The prompt built by `apply_code_changes_worker` (source line 406). -/
def apply_prompt (instructions current_code : String) : String :=
  "Please update the following code according to these instructions:\n\nInstructions:\n"
    ++ instructions ++ "\n\nCode:\n" ++ current_code

/-- `apply_code_changes_worker` (source lines 405-413): a single primary-provider
call; on exception it emits an error and returns (no retry, no cleanup);
on success it emits the `code_modification` signal. -/
def apply_code_changes_worker (instructions current_code : String)
    (primary : String → Except String String) : ApplyEvents :=
  match primary (apply_prompt instructions current_code) with
  | .ok t => { errors := [], codeMods := [t] }
  | .error e => { errors := ["Error modifying code: " ++ e], codeMods := [] }

/-- Number of UI re-enable actions for a ModifyCode task: the handler
`handle_code_modification_result` (source lines 414-417) re-enables the
Apply button once per `code_modification` signal; no other code path
re-enables it. -/
def apply_ui_enables (ev : ApplyEvents) : Nat := ev.codeMods.length

/-- C3 counterexample: with the primary model "Gemini Pro" itself selected and
its first call raising, the worker does retry against the primary provider
(two primary calls), and a successful retry reports success, contradicting
the claim that no retry happens in this case and that the task is reported
as failed. -/
theorem C3_counterexample :
    generate_content_worker "Gemini Pro" "some prompt"
        (fun k => if k = 0 then .error "boom" else .ok "recovered")
      = { results := ["recovered"], errors := [], uiUpdates := [true], primaryCalls := 2 } := by
  rfl

/-- C3 (amended): the single retry against the primary provider is attempted
exactly when the first generation attempt raises, regardless of which model
was selected (the simulated non-primary path cannot raise, so in the code the
retry fires when the primary call itself fails); at most one retry occurs, and
a failing retry is terminal and reported as Failed via an error notification. -/
theorem C3_fallback (selected prompt : String) (primary : Nat → Except String String) :
    (generate_content_worker selected prompt primary).primaryCalls ≤ 2
    ∧ (selected ≠ "Gemini Pro" →
        generate_content_worker selected prompt primary
          = { results := ["Simulated output from " ++ selected ++ " for prompt: " ++ prompt],
              errors := [], uiUpdates := [true], primaryCalls := 0 })
    ∧ (selected = "Gemini Pro" → ∀ t, primary 0 = .ok t →
        generate_content_worker selected prompt primary
          = { results := [t], errors := [], uiUpdates := [true], primaryCalls := 1 })
    ∧ (selected = "Gemini Pro" → ∀ e t, primary 0 = .error e → primary 1 = .ok t →
        generate_content_worker selected prompt primary
          = { results := [t], errors := [], uiUpdates := [true], primaryCalls := 2 })
    ∧ (selected = "Gemini Pro" → ∀ e1 e2, primary 0 = .error e1 → primary 1 = .error e2 →
        generate_content_worker selected prompt primary
          = { results := [], errors := ["API Error: " ++ e2], uiUpdates := [true],
              primaryCalls := 2 }) := by
  refine ⟨?_, ?_, ?_, ?_, ?_⟩
  · rw [generate_content_worker]
    by_cases hs : selected = "Gemini Pro"
    · cases h0 : primary 0 <;> cases h1 : primary 1 <;> simp [hs, h0, h1]
    · simp [hs]
  · intro hs
    simp [generate_content_worker, hs]
  · intro hs t h0
    simp [generate_content_worker, hs, h0]
  · intro hs e t h0 h1
    simp [generate_content_worker, hs, h0, h1]
  · intro hs e1 e2 h0 h1
    simp [generate_content_worker, hs, h0, h1]

theorem C3_fallback_witness :
    generate_content_worker "GPT-4" "p" (fun _ => .error "down")
      = { results := ["Simulated output from GPT-4 for prompt: p"],
          errors := [], uiUpdates := [true], primaryCalls := 0 } :=
  (C3_fallback "GPT-4" "p" (fun _ => .error "down")).2.1 (by decide)

/-- C7 counterexample: a ModifyCode task whose provider call raises reaches a
terminal failed state (an error notification is emitted) but re-enables the
UI zero times, not exactly once - `apply_code_changes_worker` has no
finally-equivalent cleanup. -/
theorem C7_counterexample :
    (apply_code_changes_worker "make it blue" "<p>x</p>" (fun _ => .error "boom")).errors
        = ["Error modifying code: boom"]
    ∧ apply_ui_enables
        (apply_code_changes_worker "make it blue" "<p>x</p>" (fun _ => .error "boom")) = 0 := by
  constructor <;> rfl

/-- C7 (amended): a Generate task emits the UI-enable notification exactly
once whatever the outcome (the worker's `finally` clause); a ModifyCode task
re-enables the input exactly once on success and zero times on failure (the
re-enable lives in the success handler only, with no finally-equivalent
cleanup). -/
theorem C7_ui_enable (selected prompt : String) (primary : Nat → Except String String)
    (instructions current_code : String) (p2 : String → Except String String) :
    (generate_content_worker selected prompt primary).uiUpdates = [true]
    ∧ (∀ t, p2 (apply_prompt instructions current_code) = .ok t →
        apply_ui_enables (apply_code_changes_worker instructions current_code p2) = 1)
    ∧ (∀ e, p2 (apply_prompt instructions current_code) = .error e →
        apply_ui_enables (apply_code_changes_worker instructions current_code p2) = 0) := by
  refine ⟨?_, ?_, ?_⟩
  · rw [generate_content_worker]
    by_cases hs : selected = "Gemini Pro"
    · cases h0 : primary 0 <;> cases h1 : primary 1 <;> simp [hs, h0, h1]
    · simp [hs]
  · intro t h
    simp [apply_code_changes_worker, apply_ui_enables, h]
  · intro e h
    simp [apply_code_changes_worker, apply_ui_enables, h]

theorem C7_ui_enable_witness :
    apply_ui_enables (apply_code_changes_worker "i" "c" (fun _ => .ok "new")) = 1 :=
  (C7_ui_enable "Gemini Pro" "p" (fun _ => .ok "t") "i" "c" (fun _ => .ok "new")).2.1
    "new" rfl

/-! ## CodeBlockExtractor (`extract_code_blocks`, source lines 388-396)

The regex for language `lang` is `` ```lang\s*(.*?)\s*``` `` with `re.DOTALL`.
Worked out against Python's backtracking semantics on this pattern: a match
starts at any occurrence of the literal `` ```lang `` (there is no line
anchor), the captured group is the text up to the first following `` ``` ``
with surrounding whitespace stripped (the greedy `\s*`s absorb exactly the
whitespace adjacent to the delimiters, since whitespace never contains a
backtick), and scanning resumes after that closing fence (`findall` takes
non-overlapping matches left to right). -/

def fence : List Char := "```".toList

/-- Split at the first occurrence of `` ``` ``: `some (before, after)`,
`none` if there is no closing fence. -/
def findFence : List Char → Option (List Char × List Char)
  | [] => none
  | c :: rest =>
    if startsWith fence (c :: rest) then some ([], (c :: rest).drop 3)
    else (findFence rest).map (fun p => (c :: p.1, p.2))

/-- One `findall` pass for a single language tag, fuelled for structural
recursion (the fuel is the input length at the top-level call). -/
def findBlocksAux (tag : List Char) : Nat → List Char → List (List Char)
  | 0, _ => []
  | _ + 1, [] => []
  | fuel + 1, c :: rest =>
    if startsWith (fence ++ tag) (c :: rest) then
      match findFence ((c :: rest).drop (fence ++ tag).length) with
      | some (content, rem) => pstrip content :: findBlocksAux tag fuel rem
      | none => findBlocksAux tag fuel rest
    else findBlocksAux tag fuel rest

/-- `re.findall(r'```tag\s*(.*?)\s*```', text, re.DOTALL)`. -/
def findBlocks (tag : List Char) (l : List Char) : List (List Char) :=
  findBlocksAux tag l.length l

/-- The five recognized language tags, in the dict insertion order of source
lines 389-395. -/
def langOrder : List String := ["python", "javascript", "html", "css", "bash"]

/-- `extract_code_blocks` (source lines 388-396): one independent `findall`
per recognized language. -/
def extract_code_blocks (text : List Char) : List (String × List (List Char)) :=
  langOrder.map (fun lang => (lang, findBlocks lang.toList text))

/-- Is there an occurrence of `` ```tag `` at the start of a line (position 0
or right after a newline)?  Used to state what the spec claims about where
fences are recognized. -/
def fenceAfterNewline (tag : List Char) : List Char → Bool
  | [] => false
  | c :: rest => (c = '\n' && startsWith (fence ++ tag) rest) || fenceAfterNewline tag rest

def fenceAtLineStart (tag text : List Char) : Bool :=
  startsWith (fence ++ tag) text || fenceAfterNewline tag text

theorem startsWith_append_self (p r : List Char) : startsWith p (p ++ r) = true := by
  induction p with
  | nil => simp [startsWith]
  | cons a as ih => simp [startsWith, ih]

theorem findFence_length : ∀ {l a b : List Char},
    findFence l = some (a, b) → b.length + 3 ≤ l.length := by
  intro l
  induction l with
  | nil => intro a b h; simp [findFence] at h
  | cons c rest ih =>
    intro a b h
    rw [findFence] at h
    by_cases hs : startsWith fence (c :: rest) = true
    · rw [if_pos hs] at h
      have hlen : 3 ≤ (c :: rest).length := by
        have hp := (startsWith_iff _ _).mp hs
        simpa [fence] using List.IsPrefix.length_le hp
      injection h with h
      injection h with h1 h2
      have hd : ((c :: rest).drop 3).length = (c :: rest).length - 3 := by
        simp [List.length_drop]
      rw [← h2]
      omega
    · rw [if_neg hs] at h
      cases hf : findFence rest with
      | none => rw [hf] at h; simp at h
      | some p =>
        rw [hf] at h
        simp at h
        have := ih (a := p.1) (b := p.2) (by rw [hf])
        rcases h with ⟨_, h2⟩
        rw [← h2]
        simp
        omega

theorem findFence_concat {a : List Char} (r : List Char) (h : '`' ∉ a) :
    findFence (a ++ '`' :: '`' :: '`' :: r) = some (a, r) := by
  induction a with
  | nil =>
    rw [List.nil_append, findFence]
    have hs : startsWith fence ('`' :: '`' :: '`' :: r) = true := by
      simp [fence, startsWith]
    rw [if_pos hs]
    simp
  | cons c a' ih =>
    have hc : c ≠ '`' := fun hx => h (by simp [hx])
    have h' : '`' ∉ a' := fun hx => h (by simp [hx])
    rw [List.cons_append, findFence]
    have hs : startsWith fence (c :: (a' ++ '`' :: '`' :: '`' :: r)) = false := by
      simp [fence, startsWith, Ne.symm hc]
    rw [if_neg (by simp [hs]), ih h']
    simp

theorem findBlocksAux_fuel (tag : List Char) : ∀ n : Nat, ∀ l : List Char, ∀ f1 f2 : Nat,
    l.length ≤ n → l.length ≤ f1 → l.length ≤ f2 →
    findBlocksAux tag f1 l = findBlocksAux tag f2 l := by
  intro n
  induction n with
  | zero =>
    intro l f1 f2 hn _ _
    have : l = [] := List.length_eq_zero.mp (by omega)
    subst this
    cases f1 <;> cases f2 <;> rfl
  | succ n ih =>
    intro l f1 f2 hn h1 h2
    cases l with
    | nil => cases f1 <;> cases f2 <;> rfl
    | cons c rest =>
      have hr : rest.length + 1 ≤ f1 := by simpa using h1
      have hr2 : rest.length + 1 ≤ f2 := by simpa using h2
      have hn' : rest.length + 1 ≤ n + 1 := by simpa using hn
      obtain ⟨g1, rfl⟩ : ∃ g1, f1 = g1 + 1 := ⟨f1 - 1, by omega⟩
      obtain ⟨g2, rfl⟩ : ∃ g2, f2 = g2 + 1 := ⟨f2 - 1, by omega⟩
      rw [findBlocksAux, findBlocksAux]
      by_cases hs : startsWith (fence ++ tag) (c :: rest) = true
      · rw [if_pos hs, if_pos hs]
        cases hf : findFence ((c :: rest).drop (fence ++ tag).length) with
        | none =>
          show findBlocksAux tag g1 rest = findBlocksAux tag g2 rest
          exact ih rest g1 g2 (by omega) (by omega) (by omega)
        | some p =>
          rcases p with ⟨content, rem⟩
          have hlen : rem.length + 3 ≤ ((c :: rest).drop (fence ++ tag).length).length :=
            findFence_length hf
          have hdrop : ((c :: rest).drop (fence ++ tag).length).length ≤ rest.length + 1 := by
            simp
          show pstrip content :: findBlocksAux tag g1 rem
              = pstrip content :: findBlocksAux tag g2 rem
          rw [ih rem g1 g2 (by omega) (by omega) (by omega)]
      · rw [if_neg hs, if_neg hs]
        exact ih rest g1 g2 (by omega) (by omega) (by omega)

theorem findBlocks_cons_no {tag : List Char} {c : Char} {rest : List Char}
    (h : startsWith (fence ++ tag) (c :: rest) = false) :
    findBlocks tag (c :: rest) = findBlocks tag rest := by
  show findBlocksAux tag (rest.length + 1) (c :: rest) = findBlocks tag rest
  rw [findBlocksAux, if_neg (by simp [h])]
  rfl

theorem findBlocks_cons_match {tag : List Char} {c : Char} {rest content rem : List Char}
    (h : startsWith (fence ++ tag) (c :: rest) = true)
    (hf : findFence ((c :: rest).drop (fence ++ tag).length) = some (content, rem)) :
    findBlocks tag (c :: rest) = pstrip content :: findBlocks tag rem := by
  show findBlocksAux tag (rest.length + 1) (c :: rest) = _
  rw [findBlocksAux, if_pos h, hf]
  have hlen : rem.length + 3 ≤ ((c :: rest).drop (fence ++ tag).length).length :=
    findFence_length hf
  have hdrop : ((c :: rest).drop (fence ++ tag).length).length ≤ rest.length + 1 := by
    simp
  show pstrip content :: findBlocksAux tag rest.length rem = pstrip content :: findBlocks tag rem
  rw [findBlocksAux_fuel tag rest.length rem rest.length rem.length (by omega) (by omega)
    (by omega)]
  rfl

theorem findBlocks_nil_of_no_backtick {tag : List Char} :
    ∀ {l : List Char}, '`' ∉ l → findBlocks tag l = [] := by
  intro l
  induction l with
  | nil => intro _; rfl
  | cons c rest ih =>
    intro h
    have hc : c ≠ '`' := fun hx => h (by simp [hx])
    have hs : startsWith (fence ++ tag) (c :: rest) = false := by
      simp [fence, startsWith, Ne.symm hc]
    rw [findBlocks_cons_no hs]
    exact ih (fun hx => h (by simp [hx]))

theorem findBlocks_match' {tag l content rem : List Char} (hne : l ≠ [])
    (hs : startsWith (fence ++ tag) l = true)
    (hf : findFence (l.drop (fence ++ tag).length) = some (content, rem)) :
    findBlocks tag l = pstrip content :: findBlocks tag rem := by
  cases l with
  | nil => exact absurd rfl hne
  | cons c rest => exact findBlocks_cons_match hs hf

theorem findBlocks_no' {tag l : List Char} {c : Char} {rest : List Char} (hl : l = c :: rest)
    (hs : startsWith (fence ++ tag) l = false) :
    findBlocks tag l = findBlocks tag rest := by
  subst hl
  exact findBlocks_cons_no hs

/-- C5 counterexample: in `"x```html\nA\n```"` the opening fence is not at the
start of any line, yet `extract_code_blocks` does recognize the block - the
regex has no line anchor, refuting "recognized exactly when the fence token is
at the start of a line". -/
theorem C5_counterexample :
    fenceAtLineStart "html".toList "x```html\nA\n```".toList = false
    ∧ (extract_code_blocks "x```html\nA\n```".toList).lookup "html" = some [['A']] := by
  constructor
  · decide
  · rfl

/-- C5 (amended): a block is recognized wherever the fence token immediately
followed by the language tag occurs - at any position, not only at the start
of a line; its content runs (non-greedily) to the first closing fence, with
surrounding whitespace stripped; all blocks of a language are captured in
order of appearance; zero blocks for a language is not an error (every
language maps to the empty list on fence-free text).  Stated for contents
without backtick characters. -/
theorem C5_extraction (c1 c2 : List Char) (h1 : '`' ∉ c1) (h2 : '`' ∉ c2) :
    findBlocks "html".toList
        ('x' :: ("```html".toList ++ (c1 ++ ('`' :: '`' :: '`' ::
          ('\n' :: ("```html".toList ++ (c2 ++ ['`', '`', '`'])))))))
      = [pstrip c1, pstrip c2]
    ∧ (∀ t : List Char, '`' ∉ t → ∀ lang ∈ langOrder,
        (extract_code_blocks t).lookup lang = some []) := by
  constructor
  · have e7 : ("```html".toList : List Char) = fence ++ "html".toList := rfl
    rw [e7]
    have hs1 : startsWith (fence ++ "html".toList)
        ('x' :: ((fence ++ "html".toList) ++ (c1 ++ ('`' :: '`' :: '`' ::
          ('\n' :: ((fence ++ "html".toList) ++ (c2 ++ ['`', '`', '`']))))))) = false := by
      simp [fence, startsWith]
    rw [findBlocks_no' rfl hs1]
    rw [findBlocks_match' (by simp [fence]) (startsWith_append_self _ _)
      (by rw [List.drop_left]; exact findFence_concat _ h1)]
    have hs2 : startsWith (fence ++ "html".toList)
        ('\n' :: ((fence ++ "html".toList) ++ (c2 ++ ['`', '`', '`']))) = false := by
      simp [fence, startsWith]
    rw [findBlocks_no' rfl hs2]
    rw [findBlocks_match' (by simp [fence]) (startsWith_append_self _ _)
      (by rw [List.drop_left]; exact findFence_concat _ h2)]
    rfl
  · intro t ht lang hmem
    have hfb : ∀ tg : List Char, findBlocks tg t = [] :=
      fun tg => findBlocks_nil_of_no_backtick ht
    simp only [langOrder, List.mem_cons, List.not_mem_nil, or_false] at hmem
    rcases hmem with rfl | rfl | rfl | rfl | rfl <;>
      simp [extract_code_blocks, langOrder, List.lookup, hfb]

theorem C5_extraction_witness :
    findBlocks "html".toList
        ('x' :: ("```html".toList ++ ("A".toList ++ ('`' :: '`' :: '`' ::
          ('\n' :: ("```html".toList ++ (" B ".toList ++ ['`', '`', '`'])))))))
      = [['A'], ['B']] :=
  (C5_extraction "A".toList " B ".toList (by decide) (by decide)).1

/-! ## DocumentAssembler (`process_code_blocks`, source lines 330-387) -/

/-- The full-document f-string template of source lines 365-377. -/
def template (css_code html_code js_code : List Char) : List Char :=
  "<html>\n<head>\n<style>\n".toList ++ css_code
    ++ "\n</style>\n</head>\n<body>\n".toList ++ html_code
    ++ "\n<script>\n".toList ++ js_code ++ "\n</script>\n</body>\n</html>".toList

/-- Case-insensitive match of the (nonempty) pattern `q` at the head of `l`:
`some (matched, rest)`. -/
def ciStrip (q l : List Char) : Option (List Char × List Char) :=
  if q ≠ [] ∧ q.length ≤ l.length ∧ lowerS (l.take q.length) = lowerS q then
    some (l.take q.length, l.drop q.length)
  else none

/-- `re.sub(r'(q)', ins + r'\1', l, flags=re.IGNORECASE)` for a literal
pattern `q`: insert `ins` before every (case-insensitive, non-overlapping,
left-to-right) occurrence of `q`, keeping the matched text.  Models the
replacement text literally (the shape used by the source, whose inserted
fragments are taken as backslash-free).  Fuelled for structural recursion. -/
def subInsAux (q ins : List Char) : Nat → List Char → List Char
  | 0, l => l
  | _ + 1, [] => []
  | fuel + 1, c :: rest =>
    match ciStrip q (c :: rest) with
    | some (v, rem) => ins ++ v ++ subInsAux q ins fuel rem
    | none => c :: subInsAux q ins fuel rest

def subIns (q ins l : List Char) : List Char := subInsAux q ins l.length l

/-- The web-assembly tail of `process_code_blocks` (source lines 361-384):
from the accumulated html/css/js code strings, either synthesize the full
template (fragment case) or insert style/script blocks into an existing full
document; `none` when all three are empty. -/
def process_web (html_code css_code js_code : List Char) : Option (List Char) :=
  if html_code = [] ∧ css_code = [] ∧ js_code = [] then none
  else
    let html2 := if html_code = [] then "<div></div>".toList else html_code
    if containsSub "<html".toList (lowerS html2) = false then
      some (template css_code html2 js_code)
    else
      let c1 := if css_code ≠ [] then
          subIns "</head>".toList ("<style>".toList ++ css_code ++ "</style>".toList) html2
        else html2
      let c2 := if js_code ≠ [] then
          subIns "</body>".toList ("<script>".toList ++ js_code ++ "</script>".toList) c1
        else c1
      some c2

/-- Per-language accumulation `code += block.strip() + "\n"`. -/
def concatBlocks (blocks : List (List Char)) : List Char :=
  blocks.foldl (fun acc b => acc ++ pstrip b ++ ['\n']) []

/-- The numbered per-block file writes `desktop/code_<i+1>.<ext>` with stripped
content. -/
def numberedFiles (desktop ext : String) (blocks : List (List Char)) :
    List (String × List Char) :=
  blocks.enum.map (fun p => (desktop ++ "/code_" ++ toString (p.1 + 1) ++ "." ++ ext,
    pstrip p.2))

/-- Contribution of one language group to the loop of source lines 335-360. -/
structure Contrib where
  htmlC : List Char := []
  cssC : List Char := []
  jsC : List Char := []
  files : List (String × List Char) := []
  cmds : List String := []
  createdMsgs : List String := []
deriving DecidableEq

/-- The if/elif/else chain of source lines 336-360 for one language group.
The final `else` is the "write raw file plus notification" branch. -/
def handleLang (desktop : String) (lang : String) (blocks : List (List Char)) : Contrib :=
  if lang = "html" then { htmlC := concatBlocks blocks }
  else if lang = "css" then { cssC := concatBlocks blocks }
  else if lang = "javascript" then { jsC := concatBlocks blocks }
  else if lang = "python" ∨ lang = "bash" then
    let ext := if lang = "python" then "py" else "sh"
    let fs := numberedFiles desktop ext blocks
    { files := fs,
      cmds := fs.map (fun f =>
        (if lang = "python" then "python \"" else "bash \"") ++ f.1 ++ "\"") }
  else
    let fs := numberedFiles desktop lang blocks
    { files := fs,
      createdMsgs := fs.map (fun f =>
        String.mk (upperS lang.toList) ++ " file created: " ++ f.1) }

def mergeContrib (a b : Contrib) : Contrib :=
  { htmlC := a.htmlC ++ b.htmlC, cssC := a.cssC ++ b.cssC, jsC := a.jsC ++ b.jsC,
    files := a.files ++ b.files, cmds := a.cmds ++ b.cmds,
    createdMsgs := a.createdMsgs ++ b.createdMsgs }

/-- Observable outcome of one `process_code_blocks` run: files written,
commands handed to `execute_safe_command`, "file created" notifications (the
`else` branch only), all output-queue messages, and the live-preview
document. -/
structure ProcessResult where
  files : List (String × List Char)
  cmds : List String
  createdMsgs : List String
  queue : List String
  preview : Option (List Char)
deriving DecidableEq

/-- Run the python/bash commands through the gate of `execute_safe_command`;
a blocked command raises (the `Except.error`). -/
def runCmds (procOut : String → List String) : List String → Except String (List String)
  | [] => .ok []
  | cmd :: rest =>
    if blockedB cmd then .error "Blocked potentially dangerous command"
    else match runCmds procOut rest with
      | .ok q => .ok (("$ " ++ cmd) :: procOut cmd ++ q)
      | .error e => .error e

/-- `process_code_blocks` (source lines 330-387): extract, run the per-language
loop, execute python/bash files, assemble the web document and publish it. -/
def process_code_blocks (desktop : String) (procOut : String → List String)
    (text : List Char) : Except String ProcessResult :=
  let cbs := extract_code_blocks text
  let con := (cbs.map (fun p => handleLang desktop p.1 p.2)).foldl mergeContrib {}
  match runCmds procOut con.cmds with
  | .error e => .error e
  | .ok cmdQ =>
    match process_web con.htmlC con.cssC con.jsC with
    | some doc =>
      .ok { files := con.files, cmds := con.cmds, createdMsgs := con.createdMsgs,
            queue := cmdQ ++ con.createdMsgs ++ ["Live preview updated with web code."],
            preview := some doc }
    | none =>
      .ok { files := con.files, cmds := con.cmds, createdMsgs := con.createdMsgs,
            queue := cmdQ ++ con.createdMsgs, preview := none }

/-- C8: on the input `"```html\n<p>hi</p>\n```\n```css\nbody{color:red}\n```"`
the html fragment has no `<html` token, so the full-document template is
synthesized with the css fragment in the style block and the empty javascript
fragment in the script block; the assembled document has exactly one
top-level wrapper, exactly one style block containing `body{color:red}`, and
body content `<p>hi</p>`. -/
theorem C8_concrete_assembly :
    process_code_blocks "/home/user/Desktop" (fun _ => [])
        "```html\n<p>hi</p>\n```\n```css\nbody\x7bcolor:red\x7d\n```".toList
      = .ok { files := [], cmds := [], createdMsgs := [],
              queue := ["Live preview updated with web code."],
              preview := some (template "body\x7bcolor:red\x7d\n".toList
                "<p>hi</p>\n".toList []) }
    ∧ occCount "<html".toList
        (lowerS (template "body\x7bcolor:red\x7d\n".toList "<p>hi</p>\n".toList [])) = 1
    ∧ occCount "<style".toList
        (lowerS (template "body\x7bcolor:red\x7d\n".toList "<p>hi</p>\n".toList [])) = 1
    ∧ containsSub "body\x7bcolor:red\x7d".toList
        (template "body\x7bcolor:red\x7d\n".toList "<p>hi</p>\n".toList []) = true
    ∧ containsSub "<p>hi</p>".toList
        (template "body\x7bcolor:red\x7d\n".toList "<p>hi</p>\n".toList []) = true
    ∧ containsSub "<script>\n\n</script>".toList
        (template "body\x7bcolor:red\x7d\n".toList "<p>hi</p>\n".toList []) = true := by
  refine ⟨by rfl, by decide, by decide, by decide, by decide, by decide⟩

/-- C4 counterexample: with two extracted html blocks that are each full
documents, the assembled document produced by `process_code_blocks` contains
two `<html` wrapper tokens, refuting "at most one top-level document wrapper
for every combination of inputs". -/
theorem C4_counterexample :
    process_code_blocks "/d" (fun _ => [])
        "```html\n<html></html>\n```\n```html\n<html></html>\n```".toList
      = .ok { files := [], cmds := [], createdMsgs := [],
              queue := ["Live preview updated with web code."],
              preview := some "<html></html>\n<html></html>\n".toList }
    ∧ occCount "<html".toList (lowerS "<html></html>\n<html></html>\n".toList) = 2 := by
  refine ⟨by rfl, by decide⟩

/-- C6 counterexample: a block fenced with the unrecognized tag `ruby` is not
extracted at all - no file is written, no "file created" notification is
pushed, nothing reaches the executor and no document is assembled -
refuting "written to an individual file and a notification is pushed". -/
theorem C6_counterexample :
    process_code_blocks "/d" (fun _ => []) "```ruby\nX\n```".toList
      = .ok { files := [], cmds := [], createdMsgs := [], queue := [],
              preview := none } := by
  rfl

theorem contrib_eval (desktop : String) (text : List Char) :
    ((extract_code_blocks text).map (fun p => handleLang desktop p.1 p.2)).foldl
        mergeContrib {}
      = { htmlC := concatBlocks (findBlocks "html".toList text),
          cssC := concatBlocks (findBlocks "css".toList text),
          jsC := concatBlocks (findBlocks "javascript".toList text),
          files := numberedFiles desktop "py" (findBlocks "python".toList text)
            ++ numberedFiles desktop "sh" (findBlocks "bash".toList text),
          cmds := (numberedFiles desktop "py" (findBlocks "python".toList text)).map
              (fun f => "python \"" ++ f.1 ++ "\"")
            ++ (numberedFiles desktop "sh" (findBlocks "bash".toList text)).map
              (fun f => "bash \"" ++ f.1 ++ "\""),
          createdMsgs := [] } := by
  simp [extract_code_blocks, langOrder, handleLang, mergeContrib]

/-- C6 (amended): a fenced block with an unrecognized tag is ignored entirely:
`extract_code_blocks` only ever yields the five recognized languages, so for
every input text no "file created" notification is produced, and the files
written and commands executed come exclusively from the python and bash
groups - the raw-file-plus-notification `else` branch of the loop is
unreachable. -/
theorem C6_unrecognized (desktop : String) (procOut : String → List String)
    (text : List Char) (r : ProcessResult)
    (h : process_code_blocks desktop procOut text = .ok r) :
    r.createdMsgs = []
    ∧ r.files = numberedFiles desktop "py" (findBlocks "python".toList text)
        ++ numberedFiles desktop "sh" (findBlocks "bash".toList text)
    ∧ r.cmds = (numberedFiles desktop "py" (findBlocks "python".toList text)).map
          (fun f => "python \"" ++ f.1 ++ "\"")
        ++ (numberedFiles desktop "sh" (findBlocks "bash".toList text)).map
          (fun f => "bash \"" ++ f.1 ++ "\"") := by
  rw [process_code_blocks] at h
  rw [contrib_eval desktop text] at h
  split at h
  · exact absurd h (by simp)
  · split at h
    · rcases Except.ok.inj h with rfl
      simp
    · rcases Except.ok.inj h with rfl
      simp

theorem C6_unrecognized_witness :
    ({ files := [], cmds := [], createdMsgs := [], queue := [],
       preview := none } : ProcessResult).createdMsgs = []
    ∧ ({ files := [], cmds := [], createdMsgs := [], queue := [],
         preview := none } : ProcessResult).files
        = numberedFiles "/d" "py" (findBlocks "python".toList [])
          ++ numberedFiles "/d" "sh" (findBlocks "bash".toList [])
    ∧ ({ files := [], cmds := [], createdMsgs := [], queue := [],
         preview := none } : ProcessResult).cmds
        = (numberedFiles "/d" "py" (findBlocks "python".toList [])).map
            (fun f => "python \"" ++ f.1 ++ "\"")
          ++ (numberedFiles "/d" "sh" (findBlocks "bash".toList [])).map
            (fun f => "bash \"" ++ f.1 ++ "\"") :=
  C6_unrecognized "/d" (fun _ => []) []
    { files := [], cmds := [], createdMsgs := [], queue := [], preview := none } rfl

theorem subInsAux_no_occ (q ins : List Char) (hq : lowerS q = q) :
    ∀ fuel l, containsSub q (lowerS l) = false → subInsAux q ins fuel l = l := by
  intro fuel
  induction fuel with
  | zero => intro l _; rfl
  | succ f ih =>
    intro l hno
    cases l with
    | nil => rfl
    | cons c rest =>
      have hcons : lowerS (c :: rest) = lowerChar c :: lowerS rest := rfl
      rw [hcons, containsSub, Bool.or_eq_false_iff] at hno
      obtain ⟨hsw, hrest⟩ := hno
      rw [subInsAux]
      have hci : ciStrip q (c :: rest) = none := by
        rw [ciStrip]
        by_cases hcond : q ≠ [] ∧ q.length ≤ (c :: rest).length
            ∧ lowerS ((c :: rest).take q.length) = lowerS q
        · exfalso
          obtain ⟨hq0, hqlen, htake⟩ := hcond
          have hpre : q <+: lowerS (c :: rest) := by
            have h1 : lowerS ((c :: rest).take q.length)
                = (lowerS (c :: rest)).take q.length := by
              simp [lowerS, List.map_take]
            rw [h1, hq] at htake
            simpa only [htake] using List.take_prefix q.length (lowerS (c :: rest))
          rw [hcons] at hpre
          rw [(startsWith_iff q _).mpr hpre] at hsw
          exact absurd hsw (by simp)
        · rw [if_neg hcond]
      rw [hci]
      rw [ih rest hrest]

theorem subIns_no_occ {q ins l : List Char} (hq : lowerS q = q)
    (hno : containsSub q (lowerS l) = false) : subIns q ins l = l :=
  subInsAux_no_occ q ins hq l.length l hno

/-- C10: on a full document (html fragment containing `<html`), the css
fragment is wrapped in a style tag and inserted before every case-insensitive
occurrence of `</head>` - not only the first, as the concrete two-occurrence
input shows - and when the document contains no `</head>` at all (and no
`</body>`), the insertion is a no-op: the assembled output is exactly the
html fragment, with the css and javascript fragments silently absent. -/
theorem C10_targeted_insertion (html css js : List Char)
    (hfull : containsSub "<html".toList (lowerS html) = true)
    (hh : containsSub "</head>".toList (lowerS html) = false)
    (hb : containsSub "</body>".toList (lowerS html) = false) :
    process_web html css js = some html
    ∧ process_web "<html></head>x</head>".toList ['b'] []
        = some ("<html>".toList ++ ("<style>".toList ++ ['b'] ++ "</style>".toList)
            ++ "</head>".toList ++ ['x']
            ++ ("<style>".toList ++ ['b'] ++ "</style>".toList) ++ "</head>".toList)
    ∧ occCount "<style>".toList
        ("<html>".toList ++ ("<style>".toList ++ ['b'] ++ "</style>".toList)
            ++ "</head>".toList ++ ['x']
            ++ ("<style>".toList ++ ['b'] ++ "</style>".toList) ++ "</head>".toList) = 2 := by
  refine ⟨?_, by decide, by decide⟩
  have hne : html ≠ [] := by
    intro hx
    subst hx
    simp [containsSub, lowerS] at hfull
  rw [process_web]
  rw [if_neg (by simp [hne])]
  simp only [if_neg hne]
  rw [if_neg (by rw [hfull]; simp)]
  have e1 : subIns "</head>".toList
      ("<style>".toList ++ css ++ "</style>".toList) html = html :=
    subIns_no_occ (by decide) hh
  have hc1 : (if css ≠ [] then
      subIns "</head>".toList ("<style>".toList ++ css ++ "</style>".toList) html
    else html) = html := by
    by_cases hcss : css = []
    · rw [if_neg (by simp [hcss])]
    · rw [if_pos hcss, e1]
  have e2 : subIns "</body>".toList
      ("<script>".toList ++ js ++ "</script>".toList) html = html :=
    subIns_no_occ (by decide) hb
  show some (if js ≠ [] then
      subIns "</body>".toList ("<script>".toList ++ js ++ "</script>".toList)
        (if css ≠ [] then
          subIns "</head>".toList ("<style>".toList ++ css ++ "</style>".toList) html
        else html)
    else (if css ≠ [] then
      subIns "</head>".toList ("<style>".toList ++ css ++ "</style>".toList) html
    else html)) = some html
  rw [hc1]
  have hc2 : (if js ≠ [] then
      subIns "</body>".toList ("<script>".toList ++ js ++ "</script>".toList) html
    else html) = html := by
    by_cases hjs : js = []
    · rw [if_neg (by simp [hjs])]
    · rw [if_pos hjs, e2]
  rw [hc2]

theorem C10_targeted_insertion_witness :
    process_web "<html>hi</html>".toList ['c'] ['j'] = some "<html>hi</html>".toList :=
  (C10_targeted_insertion "<html>hi</html>".toList ['c'] ['j']
    (by decide) (by decide) (by decide)).1

theorem not_prefix_two {a b : Char} {p : List Char} {c d : Char} {l : List Char}
    (h : ¬ (a = c ∧ b = d)) : ¬ (a :: b :: p) <+: c :: d :: l := by
  intro hp
  rcases List.cons_prefix_cons.mp hp with ⟨h1, hp2⟩
  rcases List.cons_prefix_cons.mp hp2 with ⟨h2, _⟩
  exact h ⟨h1, h2⟩

theorem occ_template {css html js : List Char}
    (hc : occCount "<html".toList (lowerS css) = 0)
    (hh : occCount "<html".toList (lowerS html) = 0)
    (hj : occCount "<html".toList (lowerS js) = 0) :
    occCount "<html".toList (lowerS (template css html js)) = 1 := by
  have l1 : List.map lowerChar "<html>\n<head>\n<style>\n".toList
      = "<html>\n<head>\n<style>\n".toList := by decide
  have l2 : List.map lowerChar "\n</style>\n</head>\n<body>\n".toList
      = "\n</style>\n</head>\n<body>\n".toList := by decide
  have l3 : List.map lowerChar "\n<script>\n".toList = "\n<script>\n".toList := by decide
  have l4 : List.map lowerChar "\n</script>\n</body>\n</html>".toList
      = "\n</script>\n</body>\n</html>".toList := by decide
  have hmap : lowerS (template css html js)
      = "<html>\n<head>\n<style>\n".toList ++ (lowerS css
        ++ ("\n</style>\n</head>\n<body>\n".toList ++ (lowerS html
        ++ ("\n<script>\n".toList ++ (lowerS js
        ++ "\n</script>\n</body>\n</html>".toList))))) := by
    simp only [template, lowerS, List.map_append, l1, l2, l3, l4, List.append_assoc]
  rw [hmap]
  rw [occCount_append_left (a := "<html>\n<head>\n<style>\n".toList)
    (by intro k hk1 hk2
        have hk5 : k < 5 := by simpa using hk2
        interval_cases k <;> decide)]
  rw [occCount_append_right
      (b := "\n</style>\n</head>\n<body>\n".toList ++ (lowerS html
        ++ ("\n<script>\n".toList ++ (lowerS js
        ++ "\n</script>\n</body>\n</html>".toList))))
    (by intro k hk1 hk2
        have hk5 : k < 5 := by simpa using hk2
        interval_cases k <;>
          exact not_prefix_of_head_ne (by decide) (by decide))]
  rw [occCount_append_left (a := "\n</style>\n</head>\n<body>\n".toList)
    (by intro k hk1 hk2
        have hk5 : k < 5 := by simpa using hk2
        interval_cases k <;> decide)]
  rw [occCount_append_right
      (b := "\n<script>\n".toList ++ (lowerS js
        ++ "\n</script>\n</body>\n</html>".toList))
    (by intro k hk1 hk2
        have hk5 : k < 5 := by simpa using hk2
        interval_cases k <;>
          exact not_prefix_of_head_ne (by decide) (by decide))]
  rw [occCount_append_left (a := "\n<script>\n".toList)
    (by intro k hk1 hk2
        have hk5 : k < 5 := by simpa using hk2
        interval_cases k <;> decide)]
  rw [occCount_append_right (b := "\n</script>\n</body>\n</html>".toList)
    (by intro k hk1 hk2
        have hk5 : k < 5 := by simpa using hk2
        interval_cases k <;>
          exact not_prefix_of_head_ne (by decide) (by decide))]
  rw [hc, hh, hj]
  decide

theorem subInsAux_pres (q ins : List Char)
    (hq : ∃ z, lowerS q = '<' :: '/' :: z)
    (hins : ∃ z, lowerS ins = '<' :: 's' :: z)
    (hqk : ∀ k, 0 < k → k < 5 → ¬ ("<html".toList.take k <:+ lowerS q))
    (hq0 : occCount "<html".toList (lowerS q) = 0)
    (hins0 : occCount "<html".toList (lowerS ins) = 0) :
    ∀ fuel, ∀ l : List Char, l.length ≤ fuel →
      (∀ k, k ≤ 5 → (("<html".toList.drop k <+: lowerS (subInsAux q ins fuel l))
          ↔ ("<html".toList.drop k <+: lowerS l)))
      ∧ occCount "<html".toList (lowerS (subInsAux q ins fuel l))
          = occCount "<html".toList (lowerS l) := by
  have hq2 : 2 ≤ q.length := by
    obtain ⟨z, hz⟩ := hq
    have hlen : (lowerS q).length = q.length := by simp [lowerS]
    rw [hz] at hlen
    simp at hlen
    omega
  intro fuel
  induction fuel with
  | zero =>
    intro l hl
    exact ⟨fun k hk => Iff.rfl, rfl⟩
  | succ f ih =>
    intro l hl
    cases l with
    | nil => exact ⟨fun k hk => Iff.rfl, rfl⟩
    | cons c rest =>
      have hrl : rest.length ≤ f := by simpa using hl
      cases hci : ciStrip q (c :: rest) with
      | none =>
        have hunf : subInsAux q ins (f + 1) (c :: rest)
            = c :: subInsAux q ins f rest := by
          rw [subInsAux, hci]
        have Hfam : ∀ k, k ≤ 5 →
            (("<html".toList.drop k <+: lowerS (subInsAux q ins (f + 1) (c :: rest)))
              ↔ ("<html".toList.drop k <+: lowerS (c :: rest))) := by
          intro k hk
          rw [hunf]
          interval_cases k
          · show ('<' :: 'h' :: 't' :: 'm' :: 'l' :: [])
                <+: lowerChar c :: lowerS (subInsAux q ins f rest)
              ↔ ('<' :: 'h' :: 't' :: 'm' :: 'l' :: []) <+: lowerChar c :: lowerS rest
            rw [List.cons_prefix_cons, List.cons_prefix_cons]
            exact and_congr_right fun _ => (ih rest hrl).1 1 (by omega)
          · show ('h' :: 't' :: 'm' :: 'l' :: [])
                <+: lowerChar c :: lowerS (subInsAux q ins f rest)
              ↔ ('h' :: 't' :: 'm' :: 'l' :: []) <+: lowerChar c :: lowerS rest
            rw [List.cons_prefix_cons, List.cons_prefix_cons]
            exact and_congr_right fun _ => (ih rest hrl).1 2 (by omega)
          · show ('t' :: 'm' :: 'l' :: [])
                <+: lowerChar c :: lowerS (subInsAux q ins f rest)
              ↔ ('t' :: 'm' :: 'l' :: []) <+: lowerChar c :: lowerS rest
            rw [List.cons_prefix_cons, List.cons_prefix_cons]
            exact and_congr_right fun _ => (ih rest hrl).1 3 (by omega)
          · show ('m' :: 'l' :: [])
                <+: lowerChar c :: lowerS (subInsAux q ins f rest)
              ↔ ('m' :: 'l' :: []) <+: lowerChar c :: lowerS rest
            rw [List.cons_prefix_cons, List.cons_prefix_cons]
            exact and_congr_right fun _ => (ih rest hrl).1 4 (by omega)
          · show ('l' :: [])
                <+: lowerChar c :: lowerS (subInsAux q ins f rest)
              ↔ ('l' :: []) <+: lowerChar c :: lowerS rest
            rw [List.cons_prefix_cons, List.cons_prefix_cons]
            exact and_congr_right fun _ => (ih rest hrl).1 5 (by omega)
          · show ([] : List Char) <+: lowerChar c :: lowerS (subInsAux q ins f rest)
              ↔ ([] : List Char) <+: lowerChar c :: lowerS rest
            simp
        refine ⟨Hfam, ?_⟩
        have hcond : (("<html".toList : List Char)
              <+: lowerChar c :: lowerS (subInsAux q ins f rest))
            ↔ (("<html".toList : List Char) <+: lowerChar c :: lowerS rest) := by
          have h0 := Hfam 0 (by omega)
          rw [hunf] at h0
          exact h0
        rw [hunf]
        show (if ("<html".toList : List Char)
              <+: lowerChar c :: lowerS (subInsAux q ins f rest) then 1 else 0)
            + occCount "<html".toList (lowerS (subInsAux q ins f rest))
          = (if ("<html".toList : List Char) <+: lowerChar c :: lowerS rest then 1 else 0)
            + occCount "<html".toList (lowerS rest)
        rw [(ih rest hrl).2]
        by_cases hp : ("<html".toList : List Char) <+: lowerChar c :: lowerS rest
        · rw [if_pos (hcond.mpr hp), if_pos hp]
        · rw [if_neg (fun hx => hp (hcond.mp hx)), if_neg hp]
      | some vr =>
        obtain ⟨v, rem⟩ := vr
        rw [ciStrip] at hci
        by_cases hP : q ≠ [] ∧ q.length ≤ (c :: rest).length
            ∧ lowerS ((c :: rest).take q.length) = lowerS q
        · rw [if_pos hP] at hci
          obtain ⟨hqne, hqlen, htake⟩ := hP
          injection hci with hci
          injection hci with hv hrem
          have hsplit : c :: rest = v ++ rem := by
            rw [← hv, ← hrem]
            exact (List.take_append_drop q.length (c :: rest)).symm
          have hlow : lowerS v = lowerS q := by rw [← hv]; exact htake
          have hremf : rem.length ≤ f := by
            rw [← hrem]
            have : ((c :: rest).drop q.length).length = (c :: rest).length - q.length := by
              simp
            simp only [this]
            simp
            omega
          have hunf : subInsAux q ins (f + 1) (c :: rest)
              = ins ++ v ++ subInsAux q ins f rem := by
            rw [subInsAux]
            rw [ciStrip, if_pos ⟨hqne, hqlen, htake⟩]
            rw [hv, hrem]
          obtain ⟨zi, hzi⟩ := hins
          obtain ⟨zq, hzq⟩ := hq
          have hdist : lowerS (ins ++ v ++ subInsAux q ins f rem)
              = lowerS ins ++ (lowerS v ++ lowerS (subInsAux q ins f rem)) := by
            simp [lowerS]
          have hdist2 : lowerS (c :: rest) = lowerS q ++ lowerS rem := by
            rw [hsplit]
            rw [show lowerS (v ++ rem) = lowerS v ++ lowerS rem by simp [lowerS], hlow]
          have hfamL : ∀ k, k ≤ 4 → ¬ ("<html".toList.drop k
              <+: lowerS ins ++ (lowerS v ++ lowerS (subInsAux q ins f rem))) := by
            intro k hk
            rw [hzi]
            interval_cases k
            · exact not_prefix_two (by decide)
            · exact not_prefix_of_head_ne (by decide) (by decide)
            · exact not_prefix_of_head_ne (by decide) (by decide)
            · exact not_prefix_of_head_ne (by decide) (by decide)
            · exact not_prefix_of_head_ne (by decide) (by decide)
          have hfamR : ∀ k, k ≤ 4 → ¬ ("<html".toList.drop k
              <+: lowerS (c :: rest)) := by
            intro k hk
            rw [hdist2, hzq]
            interval_cases k
            · exact not_prefix_two (by decide)
            · exact not_prefix_of_head_ne (by decide) (by decide)
            · exact not_prefix_of_head_ne (by decide) (by decide)
            · exact not_prefix_of_head_ne (by decide) (by decide)
            · exact not_prefix_of_head_ne (by decide) (by decide)
          constructor
          · intro k hk
            rw [hunf, hdist]
            by_cases hk4 : k ≤ 4
            · exact iff_of_false (hfamL k hk4) (hfamR k hk4)
            · have : k = 5 := by omega
              subst this
              show ([] : List Char) <+: _ ↔ ([] : List Char) <+: _
              simp
          · rw [hunf, hdist]
            rw [occCount_append_right (a := lowerS ins)
              (by intro k hk1 hk2
                  have hk5 : k < 5 := by simpa using hk2
                  rw [hlow, hzq]
                  interval_cases k <;>
                    exact not_prefix_of_head_ne (by decide) (by decide))]
            rw [hlow]
            rw [occCount_append_left (a := lowerS q)
              (by intro k hk1 hk2
                  have hk5 : k < 5 := by simpa using hk2
                  exact hqk k hk1 hk5)]
            rw [hins0, hq0, (ih rem hremf).2, hdist2]
            rw [occCount_append_left (a := lowerS q)
              (by intro k hk1 hk2
                  have hk5 : k < 5 := by simpa using hk2
                  exact hqk k hk1 hk5)]
            rw [hq0]
            omega
        · rw [if_neg hP] at hci
          cases hci

theorem occ_subIns_head (css html : List Char)
    (hc : occCount "<html".toList (lowerS css) = 0) :
    occCount "<html".toList (lowerS (subIns "</head>".toList
        ("<style>".toList ++ css ++ "</style>".toList) html))
      = occCount "<html".toList (lowerS html) := by
  have m1 : List.map lowerChar "<style>".toList = "<style>".toList := by decide
  have m2 : List.map lowerChar "</style>".toList = "</style>".toList := by decide
  have hd : lowerS ("<style>".toList ++ css ++ "</style>".toList)
      = "<style>".toList ++ (lowerS css ++ "</style>".toList) := by
    simp only [lowerS, List.map_append, m1, m2, List.append_assoc]
  have hins0 : occCount "<html".toList
      (lowerS ("<style>".toList ++ css ++ "</style>".toList)) = 0 := by
    rw [hd]
    rw [occCount_append_left (a := "<style>".toList)
      (by intro k hk1 hk2
          have hk5 : k < 5 := by simpa using hk2
          interval_cases k <;> decide)]
    rw [occCount_append_right (b := "</style>".toList)
      (by intro k hk1 hk2
          have hk5 : k < 5 := by simpa using hk2
          interval_cases k <;> decide)]
    rw [hc]
    decide
  exact (subInsAux_pres "</head>".toList _ ⟨"head>".toList, by decide⟩
    ⟨"tyle>".toList ++ (lowerS css ++ "</style>".toList), by rw [hd]; rfl⟩
    (by intro k hk1 hk2
        have hk5 : k < 5 := by simpa using hk2
        interval_cases k <;> decide)
    (by decide) hins0 html.length html (le_refl _)).2

theorem occ_subIns_body (js html : List Char)
    (hj : occCount "<html".toList (lowerS js) = 0) :
    occCount "<html".toList (lowerS (subIns "</body>".toList
        ("<script>".toList ++ js ++ "</script>".toList) html))
      = occCount "<html".toList (lowerS html) := by
  have m1 : List.map lowerChar "<script>".toList = "<script>".toList := by decide
  have m2 : List.map lowerChar "</script>".toList = "</script>".toList := by decide
  have hd : lowerS ("<script>".toList ++ js ++ "</script>".toList)
      = "<script>".toList ++ (lowerS js ++ "</script>".toList) := by
    simp only [lowerS, List.map_append, m1, m2, List.append_assoc]
  have hins0 : occCount "<html".toList
      (lowerS ("<script>".toList ++ js ++ "</script>".toList)) = 0 := by
    rw [hd]
    rw [occCount_append_left (a := "<script>".toList)
      (by intro k hk1 hk2
          have hk5 : k < 5 := by simpa using hk2
          interval_cases k <;> decide)]
    rw [occCount_append_right (b := "</script>".toList)
      (by intro k hk1 hk2
          have hk5 : k < 5 := by simpa using hk2
          interval_cases k <;> decide)]
    rw [hj]
    decide
  exact (subInsAux_pres "</body>".toList _ ⟨"body>".toList, by decide⟩
    ⟨"cript>".toList ++ (lowerS js ++ "</script>".toList), by rw [hd]; rfl⟩
    (by intro k hk1 hk2
        have hk5 : k < 5 := by simpa using hk2
        interval_cases k <;> decide)
    (by decide) hins0 html.length html (le_refl _)).2

theorem process_web_fragment {html css js : List Char}
    (hall : ¬ (html = [] ∧ css = [] ∧ js = []))
    (hcont : containsSub "<html".toList
      (lowerS (if html = [] then "<div></div>".toList else html)) = false) :
    process_web html css js
      = some (template css (if html = [] then "<div></div>".toList else html) js) := by
  rw [process_web, if_neg hall]
  show (if containsSub "<html".toList
        (lowerS (if html = [] then "<div></div>".toList else html)) = false then
      some (template css (if html = [] then "<div></div>".toList else html) js)
    else _) = _
  rw [if_pos hcont]

theorem process_web_fulldoc {html css js : List Char}
    (hall : ¬ (html = [] ∧ css = [] ∧ js = [])) (hne : html ≠ [])
    (hcont : containsSub "<html".toList (lowerS html) = true) :
    process_web html css js
      = some (if js ≠ [] then
          subIns "</body>".toList ("<script>".toList ++ js ++ "</script>".toList)
            (if css ≠ [] then
              subIns "</head>".toList ("<style>".toList ++ css ++ "</style>".toList) html
            else html)
        else (if css ≠ [] then
          subIns "</head>".toList ("<style>".toList ++ css ++ "</style>".toList) html
        else html)) := by
  rw [process_web, if_neg hall]
  show (if containsSub "<html".toList
        (lowerS (if html = [] then "<div></div>".toList else html)) = false then
      some (template css (if html = [] then "<div></div>".toList else html) js)
    else some (if js ≠ [] then
        subIns "</body>".toList ("<script>".toList ++ js ++ "</script>".toList)
          (if css ≠ [] then
            subIns "</head>".toList ("<style>".toList ++ css ++ "</style>".toList)
              (if html = [] then "<div></div>".toList else html)
          else (if html = [] then "<div></div>".toList else html))
      else (if css ≠ [] then
        subIns "</head>".toList ("<style>".toList ++ css ++ "</style>".toList)
          (if html = [] then "<div></div>".toList else html)
      else (if html = [] then "<div></div>".toList else html)))) = _
  simp only [if_neg hne]
  rw [if_neg (by rw [hcont]; simp)]

/-- C4 (amended): the single-wrapper invariant holds whenever the extracted
fragments themselves contribute at most one wrapper token: if none of the
html/css/javascript inputs contains `<html` (case-insensitive) - including
the all-empty combination - the assembled document contains exactly one
`<html` token (a fragment is wrapped exactly once); and if the html input is
already a full document (it contains `<html`) while css and javascript
contain none, assembly adds no wrapper: the output has exactly as many
`<html` tokens as the html input (a full document is never re-wrapped). -/
theorem C4_single_wrapper (html css js : List Char) :
    (occCount "<html".toList (lowerS html) = 0 →
      occCount "<html".toList (lowerS css) = 0 →
      occCount "<html".toList (lowerS js) = 0 →
      ∀ doc, process_web html css js = some doc →
        occCount "<html".toList (lowerS doc) = 1)
    ∧ (0 < occCount "<html".toList (lowerS html) →
      occCount "<html".toList (lowerS css) = 0 →
      occCount "<html".toList (lowerS js) = 0 →
      ∀ doc, process_web html css js = some doc →
        occCount "<html".toList (lowerS doc)
          = occCount "<html".toList (lowerS html)) := by
  constructor
  · intro hh hc hj doc hdoc
    by_cases hall : html = [] ∧ css = [] ∧ js = []
    · rw [process_web, if_pos hall] at hdoc
      cases hdoc
    · have hocc2 : occCount "<html".toList
          (lowerS (if html = [] then "<div></div>".toList else html)) = 0 := by
        by_cases hhe : html = []
        · rw [if_pos hhe]; decide
        · rw [if_neg hhe]; exact hh
      have hcont : containsSub "<html".toList
          (lowerS (if html = [] then "<div></div>".toList else html)) = false :=
        (occCount_zero_iff _ (by decide) _).mp hocc2
      rw [process_web_fragment hall hcont] at hdoc
      injection hdoc with hdoc
      rw [← hdoc]
      exact occ_template hc hocc2 hj
  · intro hh hc hj doc hdoc
    have hne : html ≠ [] := by
      intro hx
      rw [hx] at hh
      simp [lowerS, occCount] at hh
    have hcont : containsSub "<html".toList (lowerS html) = true :=
      containsSub_of_pos hh (by decide)
    rw [process_web_fulldoc (by simp [hne]) hne hcont] at hdoc
    injection hdoc with hdoc
    rw [← hdoc]
    have hc1 : occCount "<html".toList (lowerS (if css ≠ [] then
        subIns "</head>".toList ("<style>".toList ++ css ++ "</style>".toList) html
      else html)) = occCount "<html".toList (lowerS html) := by
      by_cases hcss : css = []
      · rw [if_neg (by simp [hcss])]
      · rw [if_pos hcss]
        exact occ_subIns_head css html hc
    by_cases hjs : js = []
    · rw [if_neg (by simp [hjs])]
      exact hc1
    · rw [if_pos hjs]
      rw [occ_subIns_body js _ hj]
      exact hc1

theorem C4_single_wrapper_witness :
    occCount "<html".toList (lowerS (template ['c'] "<p>hi</p>".toList ['j'])) = 1 :=
  (C4_single_wrapper "<p>hi</p>".toList ['c'] ['j']).1
    (by decide) (by decide) (by decide)
    (template ['c'] "<p>hi</p>".toList ['j'])
    (process_web_fragment (by decide) (by decide))
